import Mathlib

/-!
A shallow embedding of the SWIM-style membership/failure-detection engine
from `src/lib.rs` (crate `swimmer`), together with theorems settling the
frozen claims about it.

Modelling conventions:
* `usize` is modelled as `Nat`; `wrapping_add(1)` as addition modulo `2 ^ 64`.
* `SocketAddr` is opaque to the engine, modelled as `Nat`.
* `Duration` and `Instant` are modelled as `Nat`; `Instant::now()` becomes an
  explicit `now : Nat` argument on the operations that read the clock.
* `HashMap` is modelled as an association list with unique keys
  (`alookup` / `ainsert` / `aremove` / `aupdate`); `HashMap` iteration order is
  the list order.
* Randomness (`thread_rng`) is modelled by explicit inputs: the position
  drawn by `gen_range(0..=len)` comes from a tape (`draw`), `shuffle` takes the
  candidate shuffled list (used only when it is a permutation of the input),
  and `memberlist.choose` reads an index from the tape.  Quantifying over the
  tapes quantifies over all possible random outcomes.
* Panics (`assert!`, `assert_eq!`, `.unwrap()`) are modelled as
  `Except Fault _` errors; the infinite `while` loop in `tick`'s ping-req
  branch consumes one tape entry per iteration, so it returns `none` exactly
  when no finite amount of randomness lets the loop finish.
* `BinaryHeap` is modelled as a plain list (push/replay append, pop takes the
  head).  The `Ord` instance for `Broadcast` in the source is not a total
  order (see the claim about the comparator), so the standard library leaves
  the heap's ordering unspecified; no theorem below depends on which element
  `pop` returns.
* `f32::log10().ceil()` in `gossip` is modelled exactly:
  `ceilLog10 n` is the least `k` with `10 ^ k ≥ n`, which is the value a
  correctly rounded `log10` produces for the integer inputs reachable here.
-/

deriving instance DecidableEq for Except

/-- 2^64, the modulus of `usize` arithmetic. -/
def usizeSize : Nat := 18446744073709551616

/-- `x.wrapping_add(1)` on `usize`. -/
def wrapAdd1 (n : Nat) : Nat := (n + 1) % usizeSize

/-- Association-list lookup, first binding wins (HashMap keys are unique). -/
def alookup {α : Type} (k : Nat) : List (Nat × α) → Option α
  | [] => none
  | (k', v) :: t => if k' = k then some v else alookup k t

/-- Remove the binding of `k` (models `HashMap::remove`). -/
def aremove {α : Type} (k : Nat) (l : List (Nat × α)) : List (Nat × α) :=
  l.filter (fun e => e.1 != k)

/-- Insert/overwrite the binding of `k` (models `HashMap::insert`). -/
def ainsert {α : Type} (k : Nat) (v : α) (l : List (Nat × α)) : List (Nat × α) :=
  (k, v) :: aremove k l

/-- Apply `f` to the value bound to `k`, if any (models `HashMap::get_mut`). -/
def aupdate {α : Type} (k : Nat) (f : α → α) : List (Nat × α) → List (Nat × α)
  | [] => []
  | (k', v) :: t => if k' = k then (k', f v) :: t else (k', v) :: aupdate k f t

/-- The keys of an association list. -/
def keys {α : Type} (l : List (Nat × α)) : List Nat := l.map Prod.fst

/-- Insert `a` at position `n` (models `Vec::insert`; `n ≤ len` always holds
for the positions drawn by `gen_range(0..=len)`). -/
def insertAt (n : Nat) (a : Nat) (l : List Nat) : List Nat :=
  l.take n ++ a :: l.drop n

/-- `Vec::swap_remove(i)`: overwrite index `i` with the last element, then pop
the last element.  Only ever called with `i < l.length`. -/
def swapRemove (l : List Nat) (i : Nat) : List Nat :=
  (l.set i (l.getD (l.length - 1) 0)).dropLast

/-- Index of the first occurrence of `p` (the manual scan loop in the
`Failed` rumor branch). -/
def scanIdx (p : Nat) : List Nat → Option Nat
  | [] => none
  | x :: xs => if x = p then some 0 else (scanIdx p xs).map (· + 1)

/-- Draw one value from a random tape (an exhausted tape yields 0; theorems
quantify over tapes, which covers every possible drawn value). -/
def draw : List Nat → Nat × List Nat
  | [] => (0, [])
  | n :: t => (n, t)

/-- `memberlist.shuffle(rng)`: the outcome is an arbitrary permutation of the
input, supplied as `t`; a non-permutation input is ignored. -/
def applyShuffle (t : List Nat) (l : List Nat) : List Nat :=
  if t.Perm l then t else l

/-- Least `k` with `10 ^ k ≥ n` (fuelled; the fuel `n` always suffices). -/
def log10fuel : Nat → Nat → Nat
  | 0, _ => 0
  | fuel + 1, n => if n ≤ 1 then 0 else 1 + log10fuel fuel ((n + 9) / 10)

/-- `(n as f32).log10().ceil() as u32` for the integer inputs used here. -/
def ceilLog10 (n : Nat) : Nat := log10fuel n n

/-- `max_sends` as the source computes it:
`3 * ((members + 2) as f32).log10().ceil()`. -/
def maxSendsCode (members : Nat) : Nat := 3 * ceilLog10 (members + 2)

/-- Modelled from the spec: `max_sends = ceil(3 · log10(members + 2))`, i.e.
the least `k` with `10 ^ k ≥ (members + 2) ^ 3`.  Stated only to compare with
`maxSendsCode`. -/
def maxSendsSpec (members : Nat) : Nat := ceilLog10 ((members + 2) ^ 3)

/-- Node states carried by rumors (`RumorKind`). -/
inductive RumorKind : Type
  | Alive (addr : Nat)
  | Suspect
  | Failed
  | Depart
deriving DecidableEq

/-- Rumors disseminated on top of normal gossip. -/
structure Rumor : Type where
  peer_id : Nat
  kind : RumorKind
  incarnation : Nat
deriving DecidableEq

/-- A rumor queued for dissemination (`Broadcast`); `serialized` is always
empty in this version of the code (`push` never fills it). -/
structure Broadcast : Type where
  msg : Rumor
  serialized : List Nat
  id : Nat
  sends : Nat
deriving DecidableEq

/-- The rumor queue (`BroadcastStore`). -/
structure BroadcastStore : Type where
  broadcasts : List Broadcast
  next_broadcast : Nat
deriving DecidableEq

/-- `BroadcastStore::new`. -/
def BroadcastStore.new : BroadcastStore := ⟨[], 0⟩

/-- `BroadcastStore::push`. -/
def BroadcastStore.push (st : BroadcastStore) (r : Rumor) : BroadcastStore :=
  { broadcasts := st.broadcasts ++ [⟨r, [], st.next_broadcast, 0⟩],
    next_broadcast := wrapAdd1 st.next_broadcast }

/-- `BroadcastStore::replay_broadcast`. -/
def BroadcastStore.replay (st : BroadcastStore) (b : Broadcast) : BroadcastStore :=
  { st with broadcasts := st.broadcasts ++ [{ b with sends := b.sends + 1 }] }

/-- `BroadcastStore::pop` (the `Ord` on `Broadcast` is inconsistent, so the
heap's choice is unspecified; the model takes the head). -/
def BroadcastStore.pop (st : BroadcastStore) : Option (Broadcast × BroadcastStore) :=
  match st.broadcasts with
  | [] => none
  | b :: rest => some (b, { st with broadcasts := rest })

/-- `<Broadcast as PartialOrd>::partial_cmp` (always `Some`, so the `Ordering`
is returned directly). -/
def broadcastPartialCmp (a b : Broadcast) : Ordering :=
  if a.sends < b.sends then .lt
  else if b.serialized.length < a.serialized.length then .lt
  else compare a.id b.id

/-- `<Broadcast as Ord>::cmp`, which reverses `partial_cmp` to get a min-heap. -/
def broadcastCmp (a b : Broadcast) : Ordering := broadcastPartialCmp b a

/-- Modelled from the spec: the total order on `(sends, −size, id)` that the
spec says the comparator should realize.  Stated only to compare with
`broadcastPartialCmp`. -/
def broadcastSpecLt (a b : Broadcast) : Bool :=
  decide (a.sends < b.sends ∨
    (a.sends = b.sends ∧ (b.serialized.length < a.serialized.length ∨
      (a.serialized.length = b.serialized.length ∧ a.id < b.id))))

/-- Peer states (`PeerState`). -/
inductive PeerState : Type
  | Alive
  | Suspect
  | Failed
  | Departed
deriving DecidableEq

/-- A known peer (`Peer`). -/
structure Peer : Type where
  id : Nat
  addr : Nat
  state : PeerState
  incarnation : Nat
deriving DecidableEq

/-- Failure-detector message kinds (`MsgKind`). -/
inductive MsgKind : Type
  | Ping
  | Ack (peer_id : Nat) (incarnation : Nat)
  | PingReq (target_id : Nat) (target : Nat)
  | Push (peers : List Peer)
  | Pull (peers : List Peer)
deriving DecidableEq

/-- States of a pending ping (`PingState`). -/
inductive PingState : Type
  | Normal
  | Forwarded
  | FromElsewhere
deriving DecidableEq

/-- An in-flight ping (`PendingPing`). -/
structure PendingPing : Type where
  addr : Nat
  seq_no : Nat
  requester : Nat
  state : PingState
  sent_at : Nat
deriving DecidableEq

/-- A wire message (`Message`). -/
structure Message : Type where
  recipient : Nat
  sender_id : Nat
  sender : Nat
  seq_no : Nat
  kind : MsgKind
  gossip : List Rumor
deriving DecidableEq

/-- `PIGGYBACKED_MSGS`. -/
def PIGGYBACKED_MSGS : Nat := 10

/-- The node (`Server`). -/
structure Server : Type where
  id : Nat
  addr : Nat
  seq_no : Nat
  incarnation : Nat
  pingreq_subgroup_sz : Nat
  ping_interval : Nat
  protocol_period : Nat
  suspicion_period : Nat
  broadcasts : BroadcastStore
  pings : List (Nat × PendingPing)
  last_pinged : Nat
  memberlist : List Nat
  membership : List (Nat × Peer)
  outbox : List Message
deriving DecidableEq

/-- The panics the source can hit, and the unproductive ping-req loop. -/
inductive Fault : Type
  | wrongRecipient
  | pingNotForwarded
  | failedPeerMissing
  | failedNotInMemberlist
  | memberlistMismatch
  | pingTargetMissing
  | loopStuck
deriving DecidableEq

/-- `Server::new`. -/
def Server.new (id addr ping_interval pingreq_subgroup_sz gossip_interval
    suspicion_period : Nat) : Server :=
  { id := id
    addr := addr
    pingreq_subgroup_sz := pingreq_subgroup_sz
    ping_interval := ping_interval
    protocol_period := gossip_interval
    suspicion_period := suspicion_period
    seq_no := 1
    incarnation := 1
    broadcasts := BroadcastStore.new
    pings := []
    last_pinged := 0
    memberlist := []
    membership := []
    outbox := [] }

/-- The `while msgs.len() < PIGGYBACKED_MSGS` loop of `Server::gossip`;
`fuel` is the remaining capacity, so the fuel never runs out early. -/
def gossipGo (maxSends : Nat) : Nat → BroadcastStore → List Rumor →
    BroadcastStore × List Rumor
  | 0, st, msgs => (st, msgs)
  | fuel + 1, st, msgs =>
    match st.pop with
    | none => (st, msgs)
    | some (u, st') =>
      let st'' := if u.sends < maxSends - 1 then st'.replay u else st'
      gossipGo maxSends fuel st'' (msgs ++ [u.msg])

/-- `Server::gossip`: recompute `max_sends` and `suspicion_period`, then pop
up to `PIGGYBACKED_MSGS` broadcasts, replaying those still under budget. -/
def Server.gossip (s : Server) : Server × List Rumor :=
  let maxSends := maxSendsCode s.membership.length
  let p := gossipGo maxSends PIGGYBACKED_MSGS s.broadcasts []
  ({ s with suspicion_period := s.protocol_period * maxSends,
            broadcasts := p.1 }, p.2)

/-- `Server::ack`. -/
def Server.ack (s : Server) (node recipient : Nat) : Server :=
  let p := s.gossip
  let m : Message :=
    ⟨recipient, p.1.id, p.1.addr, p.1.seq_no, .Ack node p.1.incarnation, p.2⟩
  { p.1 with seq_no := wrapAdd1 p.1.seq_no, outbox := p.1.outbox ++ [m] }

/-- `Server::ping` (`now` stands for `Instant::now()`). -/
def Server.ping (s : Server) (node addr recipient now : Nat) : Server :=
  let p := s.gossip
  let m : Message := ⟨node, p.1.id, p.1.addr, p.1.seq_no, .Ping, p.2⟩
  let st := if recipient ≠ p.1.id then PingState.FromElsewhere else PingState.Normal
  { p.1 with
      seq_no := wrapAdd1 p.1.seq_no,
      pings := ainsert node ⟨addr, m.seq_no, recipient, st, now⟩ p.1.pings,
      outbox := p.1.outbox ++ [m] }

/-- `Server::current_membership`. -/
def Server.current_membership (s : Server) : List Peer :=
  ⟨s.id, s.addr, .Alive, s.incarnation⟩ :: s.membership.map Prod.snd

/-- `Server::remember`; `n` is the random insertion position drawn by
`gen_range(0..=memberlist.len())`. -/
def Server.remember (s : Server) (pid addr incarnation : Nat)
    (state : PeerState) (n : Nat) : Server :=
  match alookup pid s.membership with
  | some _ =>
    { s with membership :=
        aupdate pid (fun p =>
          if p.incarnation < incarnation then
            { p with incarnation := incarnation, state := state }
          else p) s.membership }
  | none =>
    { s with
        memberlist := insertAt n pid s.memberlist,
        membership := ainsert pid ⟨pid, addr, state, incarnation⟩ s.membership }

/-- `Server::join` (the `addr` parameter is unused in the source as well). -/
def Server.join (s : Server) (peer_id : Nat) (_addr : Nat) : Server :=
  if (alookup peer_id s.membership).isSome then s
  else { s with outbox := s.outbox ++ [⟨peer_id, s.id, s.addr, 0, .Pull [], []⟩] }

/-- `Server::process_gossip`; consumes tape entries for the random insertion
position of newly learned peers.  The `Failed` branch's `assert!` and the
implicit panic of `swap_remove` are the `failedNotInMemberlist` fault. -/
def processGossip (s : Server) (tape : List Nat) (r : Rumor) :
    Except Fault (Server × List Nat) :=
  match r.kind with
  | .Depart => .ok (s, tape)
  | .Alive addr =>
    if r.peer_id = s.id then
      .ok ({ s with incarnation := s.incarnation + 1,
                    broadcasts := s.broadcasts.push r }, tape)
    else
      match alookup r.peer_id s.membership with
      | some peer =>
        if peer.incarnation < r.incarnation then
          .ok ({ s with
              membership := aupdate r.peer_id
                (fun p => { p with state := .Alive, incarnation := r.incarnation })
                s.membership,
              broadcasts := s.broadcasts.push r }, tape)
        else .ok (s, tape)
      | none =>
        let d := draw tape
        let s' := s.remember r.peer_id addr r.incarnation .Alive d.1
        .ok ({ s' with broadcasts := s'.broadcasts.push r }, d.2)
  | .Suspect =>
    if r.peer_id = s.id then
      .ok ({ s with broadcasts :=
          s.broadcasts.push ⟨s.id, .Alive s.addr, s.incarnation⟩ }, tape)
    else
      match alookup r.peer_id s.membership with
      | some peer =>
        if peer.incarnation < r.incarnation then
          .ok ({ s with
              membership := aupdate r.peer_id
                (fun p => { p with state := .Suspect, incarnation := r.incarnation })
                s.membership,
              broadcasts := s.broadcasts.push r }, tape)
        else .ok (s, tape)
      | none => .ok (s, tape)
  | .Failed =>
    match alookup r.peer_id s.membership with
    | none => .ok (s, tape)
    | some _ =>
      let s' := { s with membership := aremove r.peer_id s.membership }
      match scanIdx r.peer_id s'.memberlist with
      | none => .error .failedNotInMemberlist
      | some idx =>
        .ok ({ s' with
            memberlist := swapRemove s'.memberlist idx,
            broadcasts := s'.broadcasts.push r }, tape)

/-- Apply each piggybacked rumor in order (the trailing loop of
`Server::process`). -/
def processGossipList (s : Server) (tape : List Nat) :
    List Rumor → Except Fault Server
  | [] => .ok s
  | r :: rest =>
    match processGossip s tape r with
    | .error f => .error f
    | .ok (s', tape') => processGossipList s' tape' rest

/-- The loop of `Server::process` over a `Push`/`Pull` peer list. -/
def rememberPeers (s : Server) (tape : List Nat) :
    List Peer → Server × List Nat
  | [] => (s, tape)
  | p :: rest =>
    let d := draw tape
    rememberPeers (s.remember p.id p.addr p.incarnation p.state d.1) d.2 rest

/-- The membership update at the tail of `Server::process`'s `Ack` branch:
mark the acked peer Alive at the acked incarnation when it is known, not
`Failed`, and strictly newer; learn it when unknown.  `ppaddr` is the address
stored in the pending ping. -/
def ackHandle (s : Server) (peer_id incarnation ppaddr : Nat)
    (tape : List Nat) : Server :=
  match alookup peer_id s.membership with
  | some peer =>
    if peer.state ≠ PeerState.Failed ∧ peer.incarnation < incarnation then
      { s with
          membership := aupdate peer_id
            (fun p => { p with state := .Alive, incarnation := incarnation })
            s.membership,
          broadcasts := s.broadcasts.push ⟨peer_id, .Alive peer.addr, incarnation⟩ }
    else s
  | none =>
    let d2 := draw tape
    let s' := s.remember peer_id ppaddr incarnation .Alive d2.1
    { s' with broadcasts := s'.broadcasts.push ⟨peer_id, .Alive ppaddr, incarnation⟩ }

/-- `Server::process`.  `now` models `Instant::now()` for the ping issued in
the `PingReq` branch; the tape feeds every random insertion position. -/
def Server.process (s : Server) (now : Nat) (tape : List Nat) (msg : Message) :
    Except Fault Server :=
  let s0 := { s with incarnation := s.incarnation + 1 }
  if msg.recipient ≠ s0.id then .error .wrongRecipient
  else
    let d := draw tape
    let s1 := s0.remember msg.sender_id msg.sender 0 .Alive d.1
    let tape1 := d.2
    match msg.kind with
    | .Push peers =>
      let q := rememberPeers s1 tape1 peers
      processGossipList q.1 q.2 msg.gossip
    | .Pull peers =>
      let our_peers := s1.current_membership
      let p := s1.gossip
      let m : Message := ⟨msg.sender_id, p.1.id, p.1.addr, 0, .Push our_peers, p.2⟩
      let s2 := { p.1 with outbox := p.1.outbox ++ [m] }
      let q := rememberPeers s2 tape1 peers
      processGossipList q.1 q.2 msg.gossip
    | .Ping =>
      processGossipList (s1.ack s1.id msg.sender_id) tape1 msg.gossip
    | .PingReq target_id target =>
      if target_id = s1.id then
        processGossipList (s1.ack s1.id msg.sender_id) tape1 msg.gossip
      else
        processGossipList (s1.ping target_id target msg.sender_id now) tape1 msg.gossip
    | .Ack peer_id incarnation =>
      match alookup peer_id s1.pings with
      | none => .ok s1
      | some pp =>
        let s2 := { s1 with pings := aremove peer_id s1.pings }
        if pp.seq_no ≠ msg.seq_no then .ok s2
        else
          let s3 := if pp.requester ≠ s2.id then s2.ack peer_id pp.requester else s2
          processGossipList (ackHandle s3 peer_id incarnation pp.addr tape1)
            tape1 msg.gossip

/-- The `while chosen.len() < subgroup_sz` loop of `Server::tick`'s
indirect-ping branch.  Each iteration consumes one tape entry for the
`memberlist.choose` call; `none` means the tape ran out with the guard still
true, so quantifying over all tapes captures non-termination. -/
def pingreqSelect (node pingSeq pingAddr subgroupSz : Nat) :
    Server → List Nat → List Nat → Option (Server × List Nat)
  | s, chosen, [] =>
    if chosen.length < subgroupSz then none else some (s, [])
  | s, chosen, t :: rest =>
    if chosen.length < subgroupSz then
      let recipient := s.memberlist.getD (t % s.memberlist.length) 0
      if recipient ≠ node ∧ recipient ∉ chosen then
        let p := s.gossip
        let m : Message :=
          ⟨recipient, p.1.id, p.1.addr, pingSeq, .PingReq node pingAddr, p.2⟩
        pingreqSelect node pingSeq pingAddr subgroupSz
          { p.1 with outbox := p.1.outbox ++ [m] } (recipient :: chosen) rest
      else
        pingreqSelect node pingSeq pingAddr subgroupSz s chosen rest
    else some (s, t :: rest)

/-- The expiry ladder of `Server::tick`: one pass over the (taken) pending
pings, in map-iteration order.  Returns the updated server, the retained
(possibly re-tagged) pings, and the nodes queued for removal. -/
def ladderGo (now : Nat) :
    List (Nat × PendingPing) → Server → List (Nat × PendingPing) → List Nat →
    List Nat →
    Except Fault (Server × List (Nat × PendingPing) × List Nat × List Nat)
  | [], s, acc, to_rm, tape => .ok (s, acc, to_rm, tape)
  | (node, ping) :: rest, s, acc, to_rm, tape =>
    if s.suspicion_period + ping.sent_at < now then
      if ping.state ≠ PingState.Forwarded then .error .pingNotForwarded
      else
        match alookup node s.membership with
        | none => .error .failedPeerMissing
        | some peer =>
          ladderGo now rest
            { s with broadcasts := s.broadcasts.push ⟨node, .Failed, peer.incarnation⟩ }
            (acc ++ [(node, ping)]) (to_rm ++ [node]) tape
    else if s.protocol_period + ping.sent_at < now then
      match alookup node s.membership with
      | none => ladderGo now rest s (acc ++ [(node, ping)]) (to_rm ++ [node]) tape
      | some peer =>
        if ping.state = PingState.FromElsewhere then
          ladderGo now rest s (acc ++ [(node, ping)]) (to_rm ++ [node]) tape
        else
          ladderGo now rest
            { s with broadcasts := s.broadcasts.push ⟨node, .Suspect, peer.incarnation⟩ }
            (acc ++ [(node, ping)]) to_rm tape
    else if ping.state ≠ PingState.Forwarded ∧ s.ping_interval + ping.sent_at < now then
      if ping.state ≠ PingState.Normal then
        ladderGo now rest s (acc ++ [(node, ping)]) (to_rm ++ [node]) tape
      else
        let incarnation :=
          match alookup node s.membership with
          | some p => p.incarnation
          | none => 0
        if s.memberlist.length ≤ 1 then
          ladderGo now rest
            { s with broadcasts := s.broadcasts.push ⟨node, .Suspect, incarnation⟩ }
            (acc ++ [(node, ping)]) (to_rm ++ [node]) tape
        else
          let subgroupSz := min s.pingreq_subgroup_sz s.memberlist.length
          match pingreqSelect node ping.seq_no ping.addr subgroupSz s [] tape with
          | none => .error .loopStuck
          | some (s', tape') =>
            ladderGo now rest s'
              (acc ++ [(node, { ping with state := PingState.Forwarded })]) to_rm tape'
    else
      ladderGo now rest s (acc ++ [(node, ping)]) to_rm tape

/-- `Server::tick`.  `shuffleTape` is the candidate reshuffled memberlist,
`tape` feeds the ping-req recipient choices. -/
def Server.tick (s : Server) (now : Nat) (shuffleTape : List Nat)
    (tape : List Nat) : Except Fault (Server × List Message) :=
  let s0 :=
    if s.memberlist.length ≤ s.last_pinged then
      { s with memberlist := applyShuffle shuffleTape s.memberlist, last_pinged := 0 }
    else s
  let entries := s0.pings
  let s1 := { s0 with pings := [] }
  match ladderGo now entries s1 [] [] tape with
  | .error f => .error f
  | .ok (s2, newPings, to_rm, _) =>
    let s3 := { s2 with pings := to_rm.foldl (fun ps n => aremove n ps) newPings }
    if s3.membership.isEmpty then
      .ok ({ s3 with outbox := [] }, s3.outbox)
    else if s3.memberlist.length ≠ s3.membership.length then .error .memberlistMismatch
    else
      let rcpt := s3.memberlist.getD s3.last_pinged 0
      match alookup rcpt s3.membership with
      | none => .error .pingTargetMissing
      | some peer =>
        let s4 := s3.ping rcpt peer.addr s3.id now
        let s5 := { s4 with last_pinged := s4.last_pinged + 1 }
        .ok ({ s5 with outbox := [] }, s5.outbox)

/-- Reachable server states: a fresh node followed by any sequence of
`join` / `process` / `tick` calls that ran to completion. -/
inductive Reachable : Server → Prop
  | init (id addr ping_interval pingreq_subgroup_sz gossip_interval
      suspicion_period : Nat) :
      Reachable (Server.new id addr ping_interval pingreq_subgroup_sz
        gossip_interval suspicion_period)
  | join {s : Server} (peer_id addr : Nat) :
      Reachable s → Reachable (s.join peer_id addr)
  | process {s s' : Server} (now : Nat) (tape : List Nat) (msg : Message) :
      Reachable s → s.process now tape msg = .ok s' → Reachable s'
  | tick {s s' : Server} (now : Nat) (shuffleTape tape : List Nat)
      (msgs : List Message) :
      Reachable s → s.tick now shuffleTape tape = .ok (s', msgs) → Reachable s'

/-! ## Concrete states and messages used to evaluate the code -/

/-- A fresh node 1 at address 10 (ping interval 1, fanout 2, protocol period 2,
suspicion period 100). -/
def srvA : Server := Server.new 1 10 1 2 2 100

/-- Node 1 after learning of node 2 (via a `Push` from it). -/
def srvA1 : Server := (srvA.process 0 [0] ⟨1, 2, 20, 0, .Push [], []⟩).toOption.getD srvA

/-- Node 1's first tick: it pings node 2. -/
def srvA1tick : Except Fault (Server × List Message) := srvA1.tick 0 [] []

/-- Node 1 with the ping to node 2 pending. -/
def srvA2 : Server := (srvA1tick.toOption.getD (srvA1, [])).1

/-- The Ping that `srvA1tick` emits (gossip tail empty, seq_no 1). -/
def pingA : Message := ⟨2, 1, 10, 1, .Ping, []⟩

/-- A fresh node 2 at address 20. -/
def srvB : Server := Server.new 2 20 1 2 2 100

/-- Node 2 after it processed an earlier Ping from node 3 (its seq_no is now 2). -/
def srvB1 : Server := (srvB.process 0 [0] ⟨2, 3, 30, 9, .Ping, []⟩).toOption.getD srvB

/-- Node 2 after processing node 1's Ping. -/
def srvB2 : Server := (srvB1.process 0 [0] pingA).toOption.getD srvB1

/-- The Ack node 2 sends back to node 1 (carrying node 2's own seq_no 2). -/
def ackB : Message := ⟨1, 2, 20, 2, .Ack 2 3, []⟩

/-- Node 1 after processing that Ack. -/
def srvA3 : Server := (srvA2.process 0 [0] ackB).toOption.getD srvA2

/-- A node with two known peers and a pending `Normal` direct ping to peer 2,
sent at instant 0, with `pingreq_subgroup_sz = 2`. -/
def srvStuck : Server :=
  { Server.new 1 10 1 2 2 100 with
      memberlist := [2, 3],
      membership := [(2, ⟨2, 20, .Alive, 0⟩), (3, ⟨3, 30, .Alive, 0⟩)],
      pings := [(2, ⟨20, 1, 1, .Normal, 0⟩)] }

/-- The message that delivers a Suspect rumor about node 1 to node 1 itself,
carrying incarnation 100. -/
def suspectSelfMsg : Message := ⟨1, 2, 20, 7, .Push [], [⟨1, .Suspect, 100⟩]⟩

/-- A Push whose peer list contains the recipient's own id. -/
def selfPushMsg : Message := ⟨1, 2, 20, 0, .Push [⟨1, 10, .Alive, 0⟩], []⟩

/-- Node 1 after processing a Ping from node 2: it knows node 2 and its
suspicion_period has been recomputed to 6 by the gossip call in the ack. -/
def srvC7a : Server := (srvA.process 0 [0] ⟨1, 2, 20, 1, .Ping, []⟩).toOption.getD srvA

/-- After one tick, a `Normal` ping to node 2 is pending (sent at instant 0). -/
def srvC7b : Server := ((srvC7a.tick 0 [] []).toOption.getD (srvC7a, [])).1

/-- A broadcast that has been replayed twice (sends = 2, id 0). -/
def bX : Broadcast := ⟨⟨7, .Suspect, 1⟩, [], 0, 2⟩

/-- A fresh broadcast (sends = 0) enqueued later (id 1). -/
def bY : Broadcast := ⟨⟨8, .Alive 30, 2⟩, [], 1, 0⟩

/-- An empty-membership node with protocol period 5. -/
def srvC5 : Server := Server.new 1 10 1 2 5 100

/-- The same node with a single queued broadcast. -/
def srvC5b : Server :=
  { srvC5 with broadcasts := ⟨[⟨⟨7, .Suspect, 1⟩, [], 0, 0⟩], 1⟩ }

/-- A node that knows peer 2 (incarnation 3, address 20). -/
def srvKnows2 : Server :=
  { Server.new 1 10 1 2 2 100 with
      memberlist := [2],
      membership := [(2, ⟨2, 20, .Alive, 3⟩)] }

/-- Lifetime pop count of a broadcast under a fixed `max_sends`: each pop
piggybacks the rumor once and re-enqueues it (with `sends` incremented) iff
`sends < max_sends - 1`, exactly the test in `Server::gossip`. -/
def popsToDrop (maxSends sends : Nat) : Nat :=
  if h : sends < maxSends - 1 then 1 + popsToDrop maxSends (sends + 1) else 1
termination_by maxSends - 1 - sends
decreasing_by omega

/-! ## Association-list lemmas -/

theorem alookup_eq_none_iff {α : Type} (k : Nat) (l : List (Nat × α)) :
    alookup k l = none ↔ k ∉ keys l := by
  induction l with
  | nil => simp [alookup, keys]
  | cons e t ih =>
    obtain ⟨k', v⟩ := e
    simp only [alookup, keys, List.map_cons, List.mem_cons]
    by_cases h : k' = k
    · subst h; simp
    · rw [if_neg h]
      constructor
      · intro hn hin
        rcases hin with rfl | hin
        · exact h rfl
        · exact (ih.1 hn) hin
      · intro hn
        exact ih.2 fun hin => hn (Or.inr hin)

theorem alookup_isSome_iff {α : Type} (k : Nat) (l : List (Nat × α)) :
    (alookup k l).isSome ↔ k ∈ keys l := by
  rw [Option.isSome_iff_ne_none, Ne, alookup_eq_none_iff, not_not]

theorem alookup_aremove_self {α : Type} (k : Nat) (l : List (Nat × α)) :
    alookup k (aremove k l) = none := by
  rw [alookup_eq_none_iff]
  intro hm
  rw [keys, aremove, List.mem_map] at hm
  obtain ⟨e, he, hek⟩ := hm
  rw [List.mem_filter] at he
  rw [hek] at he
  simp at he

theorem alookup_ainsert_self {α : Type} (k : Nat) (v : α) (l : List (Nat × α)) :
    alookup k (ainsert k v l) = some v := by
  simp [ainsert, alookup]

theorem aremove_of_not_mem {α : Type} (k : Nat) (l : List (Nat × α))
    (h : k ∉ keys l) : aremove k l = l := by
  rw [aremove, List.filter_eq_self]
  intro e he
  simp only [bne_iff_ne, ne_eq]
  intro hek
  exact h (by rw [keys, List.mem_map]; exact ⟨e, he, hek⟩)

theorem keys_aupdate {α : Type} (k : Nat) (f : α → α) (l : List (Nat × α)) :
    keys (aupdate k f l) = keys l := by
  induction l with
  | nil => rfl
  | cons e t ih =>
    obtain ⟨k', v⟩ := e
    by_cases h : k' = k
    · subst h; simp [aupdate, keys]
    · simp only [aupdate, if_neg h, keys, List.map_cons]
      rw [← keys, ← keys, ih]

theorem mem_keys_aremove {α : Type} (j k : Nat) (l : List (Nat × α)) :
    j ∈ keys (aremove k l) ↔ j ∈ keys l ∧ j ≠ k := by
  simp only [keys, aremove, List.mem_map, List.mem_filter, bne_iff_ne, ne_eq]
  constructor
  · rintro ⟨e, ⟨he, hne⟩, rfl⟩
    exact ⟨⟨e, he, rfl⟩, hne⟩
  · rintro ⟨⟨e, he, rfl⟩, hne⟩
    exact ⟨e, ⟨he, hne⟩, rfl⟩

theorem nodup_keys_aremove {α : Type} (k : Nat) (l : List (Nat × α))
    (h : (keys l).Nodup) : (keys (aremove k l)).Nodup :=
  List.Nodup.sublist ((l.filter_sublist).map Prod.fst) h

theorem alookup_aupdate_self {α : Type} (k : Nat) (f : α → α) (l : List (Nat × α)) :
    alookup k (aupdate k f l) = (alookup k l).map f := by
  induction l with
  | nil => rfl
  | cons e t ih =>
    obtain ⟨k', v⟩ := e
    by_cases h : k' = k
    · subst h; simp [aupdate, alookup]
    · simp [aupdate, alookup, h, ih]

theorem alookup_aupdate_ne {α : Type} (j k : Nat) (f : α → α) (l : List (Nat × α))
    (h : j ≠ k) : alookup j (aupdate k f l) = alookup j l := by
  induction l with
  | nil => rfl
  | cons e t ih =>
    obtain ⟨k', v⟩ := e
    by_cases hk : k' = k
    · subst hk; simp [aupdate, alookup, Ne.symm h]
    · by_cases hj : k' = j
      · subst hj; simp [aupdate, alookup, hk]
      · simp [aupdate, alookup, hk, hj, ih]

theorem aupdate_eq_self {α : Type} (k : Nat) (f : α → α) (l : List (Nat × α))
    (h : ∀ v, alookup k l = some v → f v = v) : aupdate k f l = l := by
  induction l with
  | nil => rfl
  | cons e t ih =>
    obtain ⟨k', v⟩ := e
    by_cases hk : k' = k
    · subst hk
      have hv : f v = v := h v (by simp [alookup])
      simp [aupdate, hv]
    · simp only [aupdate, if_neg hk]
      rw [ih (fun w hw => h w (by simp [alookup, hk]; exact hw))]

/-! ## List-structure lemmas: insertAt, swapRemove, scanIdx -/

theorem insertAt_perm (n a : Nat) (l : List Nat) :
    List.Perm (insertAt n a l) (a :: l) := by
  rw [insertAt]
  calc List.Perm (l.take n ++ a :: l.drop n) (a :: (l.take n ++ l.drop n)) :=
        List.perm_middle
    _ = a :: l := by rw [List.take_append_drop]

theorem mem_insertAt (x n a : Nat) (l : List Nat) :
    x ∈ insertAt n a l ↔ x = a ∨ x ∈ l := by
  rw [(insertAt_perm n a l).mem_iff, List.mem_cons]

theorem nodup_insertAt (n a : Nat) (l : List Nat) (ha : a ∉ l) (h : l.Nodup) :
    (insertAt n a l).Nodup := by
  rw [(insertAt_perm n a l).nodup_iff, List.nodup_cons]
  exact ⟨ha, h⟩

theorem scanIdx_eq_none_iff (p : Nat) (l : List Nat) :
    scanIdx p l = none ↔ p ∉ l := by
  induction l with
  | nil => simp [scanIdx]
  | cons x xs ih =>
    simp only [scanIdx, List.mem_cons]
    by_cases h : x = p
    · subst h; simp
    · rw [if_neg h]
      rcases hs : scanIdx p xs with _ | i
      · simp only [Option.map_none', true_iff]
        rintro (rfl | hm)
        · exact h rfl
        · exact (ih.1 hs) hm
      · have hp : p ∈ xs := by
          by_contra hm
          have hnone := ih.2 hm
          rw [hs] at hnone
          cases hnone
        constructor
        · intro he; cases he
        · intro hn; exact absurd (Or.inr hp) hn

theorem scanIdx_some (p : Nat) (l : List Nat) (i : Nat)
    (h : scanIdx p l = some i) : i < l.length ∧ l.getD i 0 = p := by
  induction l generalizing i with
  | nil => cases h
  | cons x xs ih =>
    simp only [scanIdx] at h
    by_cases hx : x = p
    · rw [if_pos hx] at h
      cases h
      simp [hx]
    · rw [if_neg hx] at h
      rcases hs : scanIdx p xs with _ | j
      · rw [hs] at h; cases h
      · rw [hs] at h
        simp only [Option.map_some', Option.some.injEq] at h
        subst h
        obtain ⟨hlt, hget⟩ := ih j hs
        exact ⟨by simpa using Nat.succ_lt_succ hlt, by simpa using hget⟩

theorem dropLast_cons_of_ne_nil (x : Nat) (l : List Nat) (h : l ≠ []) :
    (x :: l).dropLast = x :: l.dropLast := by
  cases l with
  | nil => exact absurd rfl h
  | cons y ys => rfl

theorem swapRemove_cons_succ (x : Nat) (l : List Nat) (j : Nat) (h : l ≠ []) :
    swapRemove (x :: l) (j + 1) = x :: swapRemove l j := by
  rw [swapRemove, swapRemove]
  have hlen : (x :: l).length - 1 = l.length := by simp
  have hget : (x :: l).getD ((x :: l).length - 1) 0 = l.getD (l.length - 1) 0 := by
    rw [hlen]
    cases l with
    | nil => exact absurd rfl h
    | cons y ys => simp [List.getD]
  rw [hget, List.set_cons_succ]
  exact dropLast_cons_of_ne_nil x _ (by
    intro hs
    have := congrArg List.length hs
    simp at this
    exact h this)

theorem swapRemove_zero_perm (x : Nat) (l : List Nat) :
    List.Perm (swapRemove (x :: l) 0) l := by
  cases l with
  | nil => simp [swapRemove]
  | cons y ys =>
    rw [swapRemove]
    have hne : (y :: ys) ≠ [] := by simp
    have hlast : (x :: y :: ys).getD ((x :: y :: ys).length - 1) 0
        = (y :: ys).getLast hne := by
      have h1 : (x :: y :: ys).getD ((x :: y :: ys).length - 1) 0
          = (x :: y :: ys).getLast (by simp) := by
        rw [List.getLast_eq_getElem]
        exact List.getD_eq_getElem _ _ (by simp)
      rw [h1]
      exact List.getLast_cons hne
    rw [List.set_cons_zero, hlast]
    have hdl : ((y :: ys).getLast hne :: y :: ys).dropLast
        = (y :: ys).getLast hne :: (y :: ys).dropLast :=
      dropLast_cons_of_ne_nil _ _ hne
    rw [hdl]
    calc List.Perm ((y :: ys).getLast hne :: (y :: ys).dropLast)
          ((y :: ys).dropLast ++ [(y :: ys).getLast hne]) :=
          (List.perm_append_singleton _ _).symm
      _ = y :: ys := List.dropLast_append_getLast hne

theorem swapRemove_perm_of_scanIdx (l : List Nat) (p i : Nat)
    (h : scanIdx p l = some i) : List.Perm (swapRemove l i) (l.erase p) := by
  induction l generalizing i with
  | nil => cases h
  | cons x xs ih =>
    simp only [scanIdx] at h
    by_cases hx : x = p
    · rw [if_pos hx] at h
      cases h
      subst hx
      rw [List.erase_cons_head]
      exact swapRemove_zero_perm x xs
    · rw [if_neg hx] at h
      rcases hs : scanIdx p xs with _ | j
      · rw [hs] at h; cases h
      · rw [hs] at h
        simp only [Option.map_some', Option.some.injEq] at h
        subst h
        have hxs : xs ≠ [] := by
          intro hn; rw [hn] at hs; cases hs
        rw [swapRemove_cons_succ x xs j hxs]
        have herase : (x :: xs).erase p = x :: xs.erase p := by
          rw [List.erase_cons_tail]
          simp [hx]
        rw [herase]
        exact List.Perm.cons x (ih j hs)

/-! ## Frame lemmas: fields an operation leaves unchanged -/

@[simp] theorem gossip_fst_membership (s : Server) :
    (s.gossip).1.membership = s.membership := rfl

@[simp] theorem gossip_fst_memberlist (s : Server) :
    (s.gossip).1.memberlist = s.memberlist := rfl

@[simp] theorem gossip_fst_pings (s : Server) : (s.gossip).1.pings = s.pings := rfl

@[simp] theorem gossip_fst_id (s : Server) : (s.gossip).1.id = s.id := rfl

@[simp] theorem gossip_fst_addr (s : Server) : (s.gossip).1.addr = s.addr := rfl

@[simp] theorem gossip_fst_incarnation (s : Server) :
    (s.gossip).1.incarnation = s.incarnation := rfl

@[simp] theorem gossip_fst_seq_no (s : Server) : (s.gossip).1.seq_no = s.seq_no := rfl

@[simp] theorem gossip_fst_outbox (s : Server) : (s.gossip).1.outbox = s.outbox := rfl

@[simp] theorem gossip_fst_last_pinged (s : Server) :
    (s.gossip).1.last_pinged = s.last_pinged := rfl

@[simp] theorem gossip_fst_ping_interval (s : Server) :
    (s.gossip).1.ping_interval = s.ping_interval := rfl

@[simp] theorem gossip_fst_protocol_period (s : Server) :
    (s.gossip).1.protocol_period = s.protocol_period := rfl

@[simp] theorem gossip_fst_pingreq_subgroup_sz (s : Server) :
    (s.gossip).1.pingreq_subgroup_sz = s.pingreq_subgroup_sz := rfl

@[simp] theorem ack_membership (s : Server) (n r : Nat) :
    (s.ack n r).membership = s.membership := rfl

@[simp] theorem ack_memberlist (s : Server) (n r : Nat) :
    (s.ack n r).memberlist = s.memberlist := rfl

@[simp] theorem ack_pings (s : Server) (n r : Nat) : (s.ack n r).pings = s.pings := rfl

@[simp] theorem ack_id (s : Server) (n r : Nat) : (s.ack n r).id = s.id := rfl

@[simp] theorem ack_addr (s : Server) (n r : Nat) : (s.ack n r).addr = s.addr := rfl

@[simp] theorem ack_incarnation (s : Server) (n r : Nat) :
    (s.ack n r).incarnation = s.incarnation := rfl

@[simp] theorem ack_seq_no (s : Server) (n r : Nat) :
    (s.ack n r).seq_no = wrapAdd1 s.seq_no := rfl

@[simp] theorem ack_last_pinged (s : Server) (n r : Nat) :
    (s.ack n r).last_pinged = s.last_pinged := rfl

@[simp] theorem ping_membership (s : Server) (n a r t : Nat) :
    (s.ping n a r t).membership = s.membership := rfl

@[simp] theorem ping_memberlist (s : Server) (n a r t : Nat) :
    (s.ping n a r t).memberlist = s.memberlist := rfl

@[simp] theorem ping_id (s : Server) (n a r t : Nat) : (s.ping n a r t).id = s.id := rfl

@[simp] theorem ping_addr (s : Server) (n a r t : Nat) :
    (s.ping n a r t).addr = s.addr := rfl

@[simp] theorem ping_incarnation (s : Server) (n a r t : Nat) :
    (s.ping n a r t).incarnation = s.incarnation := rfl

@[simp] theorem ping_last_pinged (s : Server) (n a r t : Nat) :
    (s.ping n a r t).last_pinged = s.last_pinged := rfl

@[simp] theorem ping_pings (s : Server) (n a r t : Nat) :
    (s.ping n a r t).pings =
      ainsert n ⟨a, s.seq_no, r,
        if r ≠ s.id then PingState.FromElsewhere else PingState.Normal, t⟩ s.pings := rfl

@[simp] theorem remember_id (s : Server) (p a i : Nat) (st : PeerState) (n : Nat) :
    (s.remember p a i st n).id = s.id := by
  cases h : alookup p s.membership <;> simp [Server.remember, h]

@[simp] theorem remember_addr (s : Server) (p a i : Nat) (st : PeerState) (n : Nat) :
    (s.remember p a i st n).addr = s.addr := by
  cases h : alookup p s.membership <;> simp [Server.remember, h]

@[simp] theorem remember_incarnation (s : Server) (p a i : Nat) (st : PeerState)
    (n : Nat) : (s.remember p a i st n).incarnation = s.incarnation := by
  cases h : alookup p s.membership <;> simp [Server.remember, h]

@[simp] theorem remember_seq_no (s : Server) (p a i : Nat) (st : PeerState) (n : Nat) :
    (s.remember p a i st n).seq_no = s.seq_no := by
  cases h : alookup p s.membership <;> simp [Server.remember, h]

@[simp] theorem remember_pings (s : Server) (p a i : Nat) (st : PeerState) (n : Nat) :
    (s.remember p a i st n).pings = s.pings := by
  cases h : alookup p s.membership <;> simp [Server.remember, h]

@[simp] theorem remember_outbox (s : Server) (p a i : Nat) (st : PeerState) (n : Nat) :
    (s.remember p a i st n).outbox = s.outbox := by
  cases h : alookup p s.membership <;> simp [Server.remember, h]

@[simp] theorem remember_broadcasts (s : Server) (p a i : Nat) (st : PeerState)
    (n : Nat) : (s.remember p a i st n).broadcasts = s.broadcasts := by
  cases h : alookup p s.membership <;> simp [Server.remember, h]

@[simp] theorem remember_suspicion_period (s : Server) (p a i : Nat) (st : PeerState)
    (n : Nat) : (s.remember p a i st n).suspicion_period = s.suspicion_period := by
  cases h : alookup p s.membership <;> simp [Server.remember, h]

@[simp] theorem remember_last_pinged (s : Server) (p a i : Nat) (st : PeerState)
    (n : Nat) : (s.remember p a i st n).last_pinged = s.last_pinged := by
  cases h : alookup p s.membership <;> simp [Server.remember, h]

theorem rememberPeers_frame (peers : List Peer) (s : Server) (tape : List Nat) :
    (rememberPeers s tape peers).1.id = s.id ∧
    (rememberPeers s tape peers).1.addr = s.addr ∧
    (rememberPeers s tape peers).1.incarnation = s.incarnation ∧
    (rememberPeers s tape peers).1.seq_no = s.seq_no ∧
    (rememberPeers s tape peers).1.pings = s.pings ∧
    (rememberPeers s tape peers).1.outbox = s.outbox ∧
    (rememberPeers s tape peers).1.broadcasts = s.broadcasts := by
  induction peers generalizing s tape with
  | nil => simp [rememberPeers]
  | cons p rest ih =>
    simp only [rememberPeers]
    obtain ⟨h1, h2, h3, h4, h5, h6, h7⟩ :=
      ih (s.remember p.id p.addr p.incarnation p.state (draw tape).1) (draw tape).2
    simp [h1, h2, h3, h4, h5, h6, h7]

theorem processGossip_frame (s : Server) (tape : List Nat) (r : Rumor) (s' : Server)
    (tape' : List Nat) (h : processGossip s tape r = .ok (s', tape')) :
    s'.pings = s.pings ∧ s'.outbox = s.outbox ∧ s'.id = s.id ∧ s'.addr = s.addr ∧
    s'.seq_no = s.seq_no ∧ s'.suspicion_period = s.suspicion_period ∧
    s'.last_pinged = s.last_pinged := by
  rcases r with ⟨pid, kind, inc⟩
  cases kind with
  | Depart =>
    simp only [processGossip] at h
    cases h
    simp
  | Alive addr =>
    simp only [processGossip] at h
    split at h
    · cases h; simp
    · split at h
      · split at h
        · cases h; simp
        · cases h; simp
      · cases h; simp
  | Suspect =>
    simp only [processGossip] at h
    split at h
    · cases h; simp
    · split at h
      · split at h
        · cases h; simp
        · cases h; simp
      · cases h; simp
  | Failed =>
    simp only [processGossip] at h
    split at h
    · cases h; simp
    · split at h
      · cases h
      · cases h; simp

theorem processGossipList_frame (rs : List Rumor) (s : Server) (tape : List Nat)
    (s' : Server) (h : processGossipList s tape rs = .ok s') :
    s'.pings = s.pings ∧ s'.outbox = s.outbox ∧ s'.id = s.id ∧ s'.addr = s.addr ∧
    s'.seq_no = s.seq_no ∧ s'.suspicion_period = s.suspicion_period ∧
    s'.last_pinged = s.last_pinged := by
  induction rs generalizing s tape with
  | nil =>
    simp only [processGossipList] at h
    cases h
    simp
  | cons r rest ih =>
    simp only [processGossipList] at h
    rcases hg : processGossip s tape r with f | p <;> rw [hg] at h
    · cases h
    · obtain ⟨h1, h2, h3, h4, h5, h6, h7⟩ := processGossip_frame _ _ _ _ _ hg
      obtain ⟨g1, g2, g3, g4, g5, g6, g7⟩ := ih p.1 p.2 h
      exact ⟨g1.trans h1, g2.trans h2, g3.trans h3, g4.trans h4, g5.trans h5,
        g6.trans h6, g7.trans h7⟩

/-! ## The memberlist/membership bijection invariant -/

/-- Every id is in the memberlist exactly once iff it is a key of the
membership map (and keys are unique). -/
def SyncInv (s : Server) : Prop :=
  s.memberlist.Nodup ∧ (keys s.membership).Nodup ∧
    ∀ i, i ∈ s.memberlist ↔ i ∈ keys s.membership

theorem syncInv_of_eq (s s' : Server) (hm : s'.membership = s.membership)
    (hl : s'.memberlist = s.memberlist) (h : SyncInv s) : SyncInv s' := by
  rw [SyncInv, hm, hl]
  exact h

theorem syncInv_new (id addr pi k gi sp : Nat) : SyncInv (Server.new id addr pi k gi sp) := by
  refine ⟨List.nodup_nil, List.nodup_nil, fun i => ?_⟩
  simp [Server.new, keys]

theorem syncInv_remember (s : Server) (p a i : Nat) (st : PeerState) (n : Nat)
    (h : SyncInv s) : SyncInv (s.remember p a i st n) := by
  obtain ⟨h1, h2, h3⟩ := h
  rcases hl : alookup p s.membership with _ | peer
  · have hpk : p ∉ keys s.membership := (alookup_eq_none_iff p s.membership).1 hl
    have hpm : p ∉ s.memberlist := fun hm => hpk ((h3 p).1 hm)
    simp only [Server.remember, hl]
    refine ⟨nodup_insertAt n p s.memberlist hpm h1, ?_, ?_⟩
    · rw [ainsert, aremove_of_not_mem p s.membership hpk]
      simp only [keys, List.map_cons, List.nodup_cons]
      exact ⟨hpk, h2⟩
    · intro j
      rw [mem_insertAt, ainsert, aremove_of_not_mem p s.membership hpk]
      simp only [keys, List.map_cons, List.mem_cons]
      constructor
      · rintro (rfl | hj)
        · exact Or.inl rfl
        · exact Or.inr ((h3 j).1 hj)
      · rintro (rfl | hj)
        · exact Or.inl rfl
        · exact Or.inr ((h3 j).2 hj)
  · simp only [Server.remember, hl]
    exact ⟨h1, by rw [keys_aupdate]; exact h2, fun j => by rw [keys_aupdate]; exact h3 j⟩

theorem syncInv_processGossip (s : Server) (tape : List Nat) (r : Rumor) (s' : Server)
    (tape' : List Nat) (h : processGossip s tape r = .ok (s', tape'))
    (hinv : SyncInv s) : SyncInv s' := by
  rcases r with ⟨pid, kind, inc⟩
  cases kind with
  | Depart =>
    simp only [processGossip] at h
    cases h
    exact hinv
  | Alive addr =>
    simp only [processGossip] at h
    split at h
    · cases h
      exact syncInv_of_eq s _ rfl rfl hinv
    · split at h
      · split at h
        · cases h
          obtain ⟨h1, h2, h3⟩ := hinv
          exact ⟨h1, by simpa [keys_aupdate] using h2,
            fun j => by simpa [keys_aupdate] using h3 j⟩
        · cases h
          exact syncInv_of_eq s _ rfl rfl hinv
      · cases h
        have := syncInv_remember s pid addr inc .Alive (draw tape).1 hinv
        exact syncInv_of_eq _ _ rfl rfl this
  | Suspect =>
    simp only [processGossip] at h
    split at h
    · cases h
      exact syncInv_of_eq s _ rfl rfl hinv
    · split at h
      · split at h
        · cases h
          obtain ⟨h1, h2, h3⟩ := hinv
          exact ⟨h1, by simpa [keys_aupdate] using h2,
            fun j => by simpa [keys_aupdate] using h3 j⟩
        · cases h
          exact syncInv_of_eq s _ rfl rfl hinv
      · cases h
        exact syncInv_of_eq s _ rfl rfl hinv
  | Failed =>
    simp only [processGossip] at h
    split at h
    · cases h
      exact syncInv_of_eq s _ rfl rfl hinv
    · rename_i peer hl
      split at h
      · cases h
      · rename_i idx hscan
        cases h
        obtain ⟨h1, h2, h3⟩ := hinv
        have hperm := swapRemove_perm_of_scanIdx s.memberlist pid idx hscan
        refine ⟨?_, nodup_keys_aremove pid s.membership h2, ?_⟩
        · exact hperm.nodup_iff.2 (h1.erase pid)
        · intro j
          rw [hperm.mem_iff, h1.mem_erase_iff, mem_keys_aremove]
          rw [h3 j]
          tauto

theorem syncInv_processGossipList (rs : List Rumor) (s : Server) (tape : List Nat)
    (s' : Server) (h : processGossipList s tape rs = .ok s') (hinv : SyncInv s) :
    SyncInv s' := by
  induction rs generalizing s tape with
  | nil =>
    simp only [processGossipList] at h
    cases h
    exact hinv
  | cons r rest ih =>
    simp only [processGossipList] at h
    rcases hg : processGossip s tape r with f | p <;> rw [hg] at h
    · cases h
    · exact ih p.1 p.2 h (syncInv_processGossip s tape r p.1 p.2 hg hinv)

theorem syncInv_rememberPeers (peers : List Peer) (s : Server) (tape : List Nat)
    (hinv : SyncInv s) : SyncInv (rememberPeers s tape peers).1 := by
  induction peers generalizing s tape with
  | nil => exact hinv
  | cons p rest ih =>
    simp only [rememberPeers]
    exact ih _ _ (syncInv_remember s p.id p.addr p.incarnation p.state (draw tape).1 hinv)

theorem syncInv_ack (s : Server) (n r : Nat) (hinv : SyncInv s) : SyncInv (s.ack n r) :=
  syncInv_of_eq s _ rfl rfl hinv

theorem syncInv_ping (s : Server) (n a r t : Nat) (hinv : SyncInv s) :
    SyncInv (s.ping n a r t) :=
  syncInv_of_eq s _ rfl rfl hinv

theorem syncInv_join (s : Server) (p a : Nat) (hinv : SyncInv s) :
    SyncInv (s.join p a) := by
  rw [Server.join]
  split
  · exact hinv
  · exact syncInv_of_eq s _ rfl rfl hinv

theorem syncInv_ackHandle (s : Server) (pid inc a : Nat) (tape : List Nat)
    (hinv : SyncInv s) : SyncInv (ackHandle s pid inc a tape) := by
  rw [ackHandle]
  split
  · split
    · obtain ⟨h1, h2, h3⟩ := hinv
      exact ⟨h1, by simpa [keys_aupdate] using h2,
        fun j => by simpa [keys_aupdate] using h3 j⟩
    · exact hinv
  · exact syncInv_of_eq _ _ rfl rfl (syncInv_remember s pid a inc .Alive (draw tape).1 hinv)

theorem syncInv_process (s : Server) (now : Nat) (tape : List Nat) (msg : Message)
    (s' : Server) (h : s.process now tape msg = .ok s') (hinv : SyncInv s) :
    SyncInv s' := by
  rw [Server.process] at h
  split at h
  · cases h
  · rcases msg with ⟨rcpt, sid, saddr, seq, kind, gsp⟩
    cases kind with
    | Push peers =>
      simp only at h
      refine syncInv_processGossipList _ _ _ _ h ?_
      exact syncInv_rememberPeers _ _ _
        (syncInv_remember _ _ _ _ _ _ (syncInv_of_eq s _ rfl rfl hinv))
    | Pull peers =>
      simp only at h
      refine syncInv_processGossipList _ _ _ _ h ?_
      refine syncInv_rememberPeers _ _ _ ?_
      refine syncInv_of_eq _ _ rfl rfl ?_
      exact syncInv_remember _ _ _ _ _ _ (syncInv_of_eq s _ rfl rfl hinv)
    | Ping =>
      simp only at h
      refine syncInv_processGossipList _ _ _ _ h ?_
      exact syncInv_ack _ _ _
        (syncInv_remember _ _ _ _ _ _ (syncInv_of_eq s _ rfl rfl hinv))
    | PingReq target_id target =>
      simp only at h
      split at h
      · refine syncInv_processGossipList _ _ _ _ h ?_
        exact syncInv_ack _ _ _
          (syncInv_remember _ _ _ _ _ _ (syncInv_of_eq s _ rfl rfl hinv))
      · refine syncInv_processGossipList _ _ _ _ h ?_
        exact syncInv_ping _ _ _ _ _
          (syncInv_remember _ _ _ _ _ _ (syncInv_of_eq s _ rfl rfl hinv))
    | Ack peer_id incarnation =>
      simp only at h
      have hs1 : SyncInv (({ s with incarnation := s.incarnation + 1 } :
          Server).remember sid saddr 0 .Alive (draw tape).1) :=
        syncInv_remember _ _ _ _ _ _ (syncInv_of_eq s _ rfl rfl hinv)
      split at h
      · cases h
        exact hs1
      · rename_i pp hpp
        split at h
        · cases h
          exact syncInv_of_eq _ _ rfl rfl hs1
        · refine syncInv_processGossipList _ _ _ _ h ?_
          refine syncInv_ackHandle _ _ _ _ _ ?_
          split
          · exact syncInv_ack _ _ _ (syncInv_of_eq _ _ rfl rfl hs1)
          · exact syncInv_of_eq _ _ rfl rfl hs1

theorem applyShuffle_perm (t l : List Nat) : List.Perm (applyShuffle t l) l := by
  rw [applyShuffle]
  split
  · assumption
  · exact List.Perm.refl l

theorem syncInv_perm_memberlist (s s' : Server) (hm : s'.membership = s.membership)
    (hl : List.Perm s'.memberlist s.memberlist) (h : SyncInv s) : SyncInv s' := by
  obtain ⟨h1, h2, h3⟩ := h
  rw [SyncInv, hm]
  exact ⟨hl.nodup_iff.2 h1, h2, fun i => by rw [hl.mem_iff]; exact h3 i⟩

theorem pingreqSelect_frame (node q a k : Nat) (tape : List Nat) :
    ∀ (s : Server) (chosen : List Nat) (s' : Server) (tape' : List Nat),
    pingreqSelect node q a k s chosen tape = some (s', tape') →
    s'.membership = s.membership ∧ s'.memberlist = s.memberlist ∧
    s'.pings = s.pings ∧ s'.last_pinged = s.last_pinged ∧ s'.id = s.id := by
  induction tape with
  | nil =>
    intro s chosen s' tape' h
    simp only [pingreqSelect] at h
    split at h
    · cases h
    · cases h
      exact ⟨rfl, rfl, rfl, rfl, rfl⟩
  | cons t rest ih =>
    intro s chosen s' tape' h
    simp only [pingreqSelect] at h
    split at h
    · split at h
      · have := ih _ _ _ _ h
        simpa using this
      · exact ih _ _ _ _ h
    · cases h
      exact ⟨rfl, rfl, rfl, rfl, rfl⟩

theorem ladderGo_frame (now : Nat) (entries : List (Nat × PendingPing)) :
    ∀ (s : Server) (acc : List (Nat × PendingPing)) (to_rm tape : List Nat)
      (s' : Server) (pg : List (Nat × PendingPing)) (rm tp : List Nat),
    ladderGo now entries s acc to_rm tape = .ok (s', pg, rm, tp) →
    s'.membership = s.membership ∧ s'.memberlist = s.memberlist ∧
    s'.pings = s.pings ∧ s'.last_pinged = s.last_pinged ∧ s'.id = s.id := by
  induction entries with
  | nil =>
    intro s acc to_rm tape s' pg rm tp h
    simp only [ladderGo] at h
    cases h
    exact ⟨rfl, rfl, rfl, rfl, rfl⟩
  | cons e rest ih =>
    intro s acc to_rm tape s' pg rm tp h
    obtain ⟨node, ping⟩ := e
    simp only [ladderGo] at h
    split at h
    · split at h
      · cases h
      · split at h
        · cases h
        · have := ih _ _ _ _ _ _ _ _ h
          simpa using this
    · split at h
      · split at h
        · exact ih _ _ _ _ _ _ _ _ h
        · split at h
          · exact ih _ _ _ _ _ _ _ _ h
          · have := ih _ _ _ _ _ _ _ _ h
            simpa using this
      · split at h
        · split at h
          · exact ih _ _ _ _ _ _ _ _ h
          · split at h
            · have := ih _ _ _ _ _ _ _ _ h
              simpa using this
            · split at h
              · cases h
              · rename_i sx tx hsel
                have hrec := ih _ _ _ _ _ _ _ _ h
                have hfr := pingreqSelect_frame _ _ _ _ _ _ _ _ _ hsel
                exact ⟨hrec.1.trans hfr.1, hrec.2.1.trans hfr.2.1,
                  hrec.2.2.1.trans hfr.2.2.1, hrec.2.2.2.1.trans hfr.2.2.2.1,
                  hrec.2.2.2.2.trans hfr.2.2.2.2⟩
        · exact ih _ _ _ _ _ _ _ _ h

theorem syncInv_tick (s : Server) (now : Nat) (sh tape : List Nat) (s' : Server)
    (msgs : List Message) (h : s.tick now sh tape = .ok (s', msgs))
    (hinv : SyncInv s) : SyncInv s' := by
  rw [Server.tick] at h
  have hs0 : SyncInv (if s.memberlist.length ≤ s.last_pinged then
      { s with memberlist := applyShuffle sh s.memberlist, last_pinged := 0 }
      else s) := by
    split
    · exact syncInv_perm_memberlist s _ rfl (applyShuffle_perm sh s.memberlist) hinv
    · exact hinv
  generalize hgen : (if s.memberlist.length ≤ s.last_pinged then
      { s with memberlist := applyShuffle sh s.memberlist, last_pinged := 0 }
      else s) = s0 at h hs0
  split at h
  · cases h
  · rename_i res s2 newPings to_rm tp heq
    have hfr := ladderGo_frame now _ _ _ _ _ _ _ _ _ heq
    have hs2 : SyncInv s2 := by
      refine syncInv_of_eq _ s2 ?_ ?_ hs0
      · exact hfr.1
      · exact hfr.2.1
    dsimp only at h
    split at h
    · cases h
      exact syncInv_of_eq _ _ rfl rfl hs2
    · split at h
      · cases h
      · split at h
        · cases h
        · rename_i peer hpeer
          cases h
          refine syncInv_of_eq _ _ ?_ ?_ hs2 <;> simp

/-! ## Claim theorems -/

/-- C8 (code_bug evidence): on the reachable pair of broadcasts `bX`
(sends = 2, id 0) and `bY` (sends = 0, id 1) the source's comparator returns
`Less` in *both* directions, so it is not a total (or even partial) order and
cannot agree with the claimed `(sends, −size, id)` order, under which exactly
one of the two is smaller (`bY`, the one with fewer sends). -/
theorem c8_comparator_not_an_order :
    broadcastPartialCmp bX bY = .lt ∧ broadcastPartialCmp bY bX = .lt ∧
    broadcastCmp bX bY = .lt ∧ broadcastCmp bY bX = .lt ∧
    broadcastSpecLt bY bX = true ∧ broadcastSpecLt bX bY = false := by
  decide

/-- C4 (code_bug evidence): a fresh node 1 processing a Push whose peer list
contains an entry with id 1 stores *itself* in its own membership map and
memberlist (the `remember` call has no self-guard). -/
theorem c4_node_stores_itself :
    ((srvA.process 0 [0, 0] selfPushMsg).toOption.map
      (fun s' => (alookup 1 s'.membership, s'.memberlist)))
      = some (some ⟨1, 10, .Alive, 0⟩, [1, 2]) := by
  decide

/-- C3 counterexample: node 1 (incarnation 1) processes a message carrying a
Suspect rumor about itself with incarnation 100; the Alive rumor it enqueues
carries incarnation 2 (its current incarnation after the per-message bump),
which is *not* strictly greater than the 100 carried by the Suspect rumor. -/
theorem c3_counterexample :
    ((srvA.process 0 [0] suspectSelfMsg).toOption.map
      (fun s' => s'.broadcasts.broadcasts.map Broadcast.msg))
      = some [⟨1, .Alive 10, 2⟩] ∧ ¬ ((2 : Nat) > 100) := by
  constructor
  · decide
  · decide

/-- C7 counterexample: a reachable state in which `tick` reaches the
suspicion branch with a pending ping still in state `Normal`, so the
`assert!(ping.state == PingState::Forwarded)` fails.  Node 1 pings node 2 at
instant 0 (suspicion_period having been recomputed to 6); no tick runs until
instant 10, at which point the ping is past the suspicion period but was
never promoted to `Forwarded`. -/
theorem c7_counterexample :
    srvC7b.tick 10 [2] [] = .error .pingNotForwarded := by
  decide

/-- C1 counterexample: node 2, whose seq_no is already 2 after an earlier
exchange, answers node 1's Ping (seq_no 1) with an Ack carrying its *own*
seq_no 2 — not the Ping's seq_no.  Node 1's pending-ping entry for node 2 is
nevertheless removed when it processes that Ack (the entry is removed before
the seq_no comparison). -/
theorem c1_counterexample :
    srvA1tick.toOption.map Prod.snd = some [pingA] ∧
    srvB2.outbox = [⟨3, 2, 20, 1, .Ack 2 2, []⟩, ⟨1, 2, 20, 2, .Ack 2 3, []⟩] ∧
    pingA.seq_no = 1 ∧ (2 : Nat) ≠ 1 ∧
    alookup 2 srvA2.pings = some ⟨20, 1, 1, .Normal, 0⟩ ∧
    alookup 2 srvA3.pings = none := by
  refine ⟨by decide, by decide, by decide, by decide, by decide, by decide⟩

/-- C6: in every reachable state — in particular after any completed
`process` or `tick` call — the memberlist and the membership map have the
same number of entries, and an id occurs (exactly once, by the Nodup parts)
in one iff it occurs in the other. -/
theorem c6_memberlist_matches_membership (s : Server) (h : Reachable s) :
    s.memberlist.length = s.membership.length ∧ s.memberlist.Nodup ∧
    (keys s.membership).Nodup ∧
    ∀ i, i ∈ s.memberlist ↔ i ∈ keys s.membership := by
  have hinv : SyncInv s := by
    induction h with
    | init id addr pi k gi sp => exact syncInv_new id addr pi k gi sp
    | join pid a hr ih => exact syncInv_join _ pid a ih
    | process now tape msg hr hp ih => exact syncInv_process _ now tape msg _ hp ih
    | tick now sh tape msgs hr ht ih => exact syncInv_tick _ now sh tape _ msgs ht ih
  obtain ⟨h1, h2, h3⟩ := hinv
  refine ⟨?_, h1, h2, h3⟩
  have hperm : List.Perm s.memberlist (keys s.membership) :=
    (List.perm_ext_iff_of_nodup h1 h2).2 h3
  have hlen := hperm.length_eq
  rw [hlen, keys, List.length_map]

/-- Witness for C6 at a concrete reachable state (node 1 after learning of
node 2 through a Push): memberlist [2] and membership {2} agree. -/
theorem c6_witness :
    srvA1.memberlist.length = srvA1.membership.length ∧
    (2 ∈ srvA1.memberlist ↔ 2 ∈ keys srvA1.membership) := by
  have hr : Reachable srvA1 := by
    refine Reachable.process 0 [0] ⟨1, 2, 20, 0, .Push [], []⟩ (Reachable.init 1 10 1 2 2 100) ?_
    decide
  have h := c6_memberlist_matches_membership srvA1 hr
  exact ⟨h.1, h.2.2.2 2⟩

/-- C10: `remember` on an already-known peer never touches the memberlist or
other peers' entries; it rewrites the stored peer iff the offered incarnation
is strictly greater, and then only its `state` and `incarnation` fields — the
stored id and address are kept.  With incarnation ≤ stored, the whole
membership map is unchanged. -/
theorem c10_remember_update_rule (s : Server) (p a inc : Nat) (st : PeerState)
    (n : Nat) (pr : Peer) (h : alookup p s.membership = some pr) :
    (s.remember p a inc st n).memberlist = s.memberlist ∧
    alookup p (s.remember p a inc st n).membership =
      some (if pr.incarnation < inc then
        { pr with state := st, incarnation := inc } else pr) ∧
    (¬ pr.incarnation < inc → (s.remember p a inc st n).membership = s.membership) ∧
    (∀ j, j ≠ p → alookup j (s.remember p a inc st n).membership =
      alookup j s.membership) := by
  simp only [Server.remember, h]
  refine ⟨trivial, ?_, ?_, ?_⟩
  · rw [alookup_aupdate_self, h]
    simp only [Option.map_some']
  · intro hn
    apply aupdate_eq_self
    intro v hv
    rw [h] at hv
    cases hv
    exact if_neg hn
  · intro j hj
    exact alookup_aupdate_ne j p _ s.membership hj

/-- Witness for C10: peer 2 is stored at incarnation 3; an update at
incarnation 5 rewrites state and incarnation but keeps address 20, and an
update at incarnation 3 changes nothing. -/
theorem c10_witness :
    (srvKnows2.remember 2 77 5 .Suspect 0).memberlist = srvKnows2.memberlist ∧
    alookup 2 (srvKnows2.remember 2 77 5 .Suspect 0).membership =
      some ⟨2, 20, .Suspect, 5⟩ ∧
    (srvKnows2.remember 2 77 3 .Suspect 0).membership = srvKnows2.membership := by
  have h5 := c10_remember_update_rule srvKnows2 2 77 5 .Suspect 0 ⟨2, 20, .Alive, 3⟩ (by decide)
  have h3 := c10_remember_update_rule srvKnows2 2 77 3 .Suspect 0 ⟨2, 20, .Alive, 3⟩ (by decide)
  refine ⟨h5.1, ?_, h3.2.2.1 (by decide)⟩
  rw [h5.2.1]
  decide

/-- C9: processing a `Failed` rumor about a known peer removes it from the
membership map and the memberlist and re-enqueues the rumor; about an unknown
peer it is a no-op; and a subsequent `Alive` rumor with strictly higher
incarnation re-admits the removed peer as Alive at that incarnation. -/
theorem c9_failed_removal_and_rejoin (s : Server) (tape : List Nat) (p i : Nat)
    (pr : Peer) :
    (alookup p s.membership = some pr → p ∈ s.memberlist → s.memberlist.Nodup →
      ∃ s', processGossip s tape ⟨p, .Failed, i⟩ = .ok (s', tape) ∧
        alookup p s'.membership = none ∧ p ∉ s'.memberlist ∧
        ∃ b ∈ s'.broadcasts.broadcasts, b.msg = ⟨p, .Failed, i⟩) ∧
    (alookup p s.membership = none →
      processGossip s tape ⟨p, .Failed, i⟩ = .ok (s, tape)) ∧
    (alookup p s.membership = none → p ≠ s.id → pr.incarnation < i →
      ∀ (a : Nat) (s' : Server) (tape' : List Nat),
        processGossip s tape ⟨p, .Alive a, i⟩ = .ok (s', tape') →
        alookup p s'.membership = some ⟨p, a, .Alive, i⟩) := by
  refine ⟨?_, ?_, ?_⟩
  · intro hp hmem hnd
    simp only [processGossip, hp]
    rcases hs : scanIdx p s.memberlist with _ | idx
    · exact absurd ((scanIdx_eq_none_iff p s.memberlist).1 hs) (by simpa using hmem)
    · refine ⟨_, rfl, ?_, ?_, ?_⟩
      · exact alookup_aremove_self p s.membership
      · intro hin
        have hperm := swapRemove_perm_of_scanIdx s.memberlist p idx hs
        rw [hperm.mem_iff, hnd.mem_erase_iff] at hin
        exact hin.1 rfl
      · refine ⟨⟨⟨p, .Failed, i⟩, [], s.broadcasts.next_broadcast, 0⟩, ?_, rfl⟩
        simp [BroadcastStore.push]
  · intro hp
    simp only [processGossip, hp]
  · intro hp hpid _ a s' tape' h
    simp only [processGossip, if_neg hpid, hp] at h
    cases h
    show alookup p (s.remember p a i PeerState.Alive (draw tape).1).membership
        = some ⟨p, a, PeerState.Alive, i⟩
    rw [show (s.remember p a i PeerState.Alive (draw tape).1).membership
        = ainsert p ⟨p, a, PeerState.Alive, i⟩ s.membership from by
      simp only [Server.remember, hp]]
    exact alookup_ainsert_self p _ s.membership

/-! ## Gossip send-budget lemmas -/

theorem ceilLog10_pos (n : Nat) (h : 2 ≤ n) : 1 ≤ ceilLog10 n := by
  rw [ceilLog10]
  match n, h with
  | (k + 2), _ =>
    simp only [log10fuel]
    rw [if_neg (by omega)]
    omega

theorem popsToDrop_eq (m : Nat) : ∀ (k s : Nat), s + k = m - 1 → popsToDrop m s = k + 1 := by
  intro k
  induction k with
  | zero =>
    intro s hs
    rw [popsToDrop, dif_neg (by omega)]
  | succ k ih =>
    intro s hs
    rw [popsToDrop, dif_pos (by omega), ih (s + 1) (by omega)]
    omega

/-- C5 counterexample: with 0 members the code derives `max_sends`
`3 · ceil(log10 2) = 3`, while the claimed formula `ceil(3 · log10 2)` gives
1; the gossip call really does install `suspicion_period = 5 · 3 = 15`.
(The model evaluates `f32::log10().ceil()` exactly; any faithfully rounded
`log10` of 2.0 lands strictly between 0 and 1, so its ceiling is 1.) -/
theorem c5_counterexample :
    maxSendsCode 0 = 3 ∧ maxSendsSpec 0 = 1 ∧ maxSendsCode 0 ≠ maxSendsSpec 0 ∧
    (srvC5.gossip).1.suspicion_period = 15 := by
  decide

/-- C5 amended: the store derives `max_sends = 3 · ceil(log10(members + 2))`
(always ≥ 3); a popped broadcast is re-enqueued iff `sends < max_sends − 1`,
so with the membership size fixed a fresh rumor is popped (piggybacked)
exactly `max_sends` times and then dropped; a single queued rumor at
membership size 0 is indeed emitted 3 times by `gossip` and then dropped. -/
theorem c5_send_budget (m : Nat) :
    maxSendsCode m = 3 * ceilLog10 (m + 2) ∧
    3 ≤ maxSendsCode m ∧
    popsToDrop (maxSendsCode m) 0 = maxSendsCode m ∧
    (srvC5b.gossip).2 = [⟨7, .Suspect, 1⟩, ⟨7, .Suspect, 1⟩, ⟨7, .Suspect, 1⟩] ∧
    (srvC5b.gossip).1.broadcasts.broadcasts = [] := by
  have hpos : 1 ≤ ceilLog10 (m + 2) := ceilLog10_pos (m + 2) (by omega)
  have h3 : 3 ≤ maxSendsCode m := by
    rw [maxSendsCode]
    omega
  refine ⟨rfl, h3, ?_, by decide, by decide⟩
  have := popsToDrop_eq (maxSendsCode m) (maxSendsCode m - 1) 0 (by omega)
  rw [this]
  omega

/-! ## The non-terminating ping-req selection loop -/

theorem all_eq_nodup_length_le_one (c0 : Nat) (l : List Nat)
    (hall : ∀ c ∈ l, c = c0) (hnd : l.Nodup) : l.length ≤ 1 := by
  match l with
  | [] => simp
  | [x] => simp
  | x :: y :: rest =>
    have hx := hall x (by simp)
    have hy := hall y (by simp)
    rw [List.nodup_cons] at hnd
    exact absurd (by rw [hx, hy]; simp : x ∈ y :: rest) hnd.1

theorem pingreqLoop_no_exit (q a : Nat) :
    ∀ (tape : List Nat) (s : Server) (chosen : List Nat),
    s.memberlist = [2, 3] → (∀ c ∈ chosen, c = 3) → chosen.Nodup →
    pingreqSelect 2 q a 2 s chosen tape = none := by
  intro tape
  induction tape with
  | nil =>
    intro s chosen hm hall hnd
    have hlen := all_eq_nodup_length_le_one 3 chosen hall hnd
    simp only [pingreqSelect]
    rw [if_pos (by omega)]
  | cons t rest ih =>
    intro s chosen hm hall hnd
    have hlen := all_eq_nodup_length_le_one 3 chosen hall hnd
    simp only [pingreqSelect]
    rw [if_pos (by omega), hm]
    rcases Nat.mod_two_eq_zero_or_one t with h2 | h2
    · rw [show ([2, 3] : List Nat).length = 2 from rfl, h2]
      rw [if_neg (by simp [List.getD])]
      exact ih s chosen hm hall hnd
    · rw [show ([2, 3] : List Nat).length = 2 from rfl, h2]
      by_cases hmem : (3 : Nat) ∈ chosen
      · rw [if_neg (by simp [List.getD, hmem])]
        exact ih s chosen hm hall hnd
      · rw [if_pos (by simp [List.getD, hmem])]
        refine ih _ (3 :: chosen) (by simp [hm]) ?_ ?_
        · intro c hc
          rcases List.mem_cons.1 hc with rfl | hc
          · rfl
          · exact hall c hc
        · rw [List.nodup_cons]
          exact ⟨hmem, hnd⟩

/-- C2 (code_bug evidence): with memberlist [2, 3], `pingreq_subgroup_sz = 2`
and a pending `Normal` ping to member 2 past the ping interval, the selection
loop needs 2 distinct recipients different from the target but only one
exists, so no finite amount of randomness ever satisfies the
`while chosen.len() < subgroup_sz` guard: `tick` never returns. -/
theorem c2_tick_pingreq_loop_diverges (tape : List Nat) :
    srvStuck.tick 2 [] tape = .error .loopStuck := by
  have hsel : pingreqSelect 2 1 20 2 ({ srvStuck with pings := [] }) [] tape = none := by
    refine pingreqLoop_no_exit 1 20 tape _ [] rfl ?_ List.nodup_nil
    intro c hc
    cases hc
  have hlad : ladderGo 2 srvStuck.pings ({ srvStuck with pings := [] }) [] [] tape
      = .error .loopStuck := by
    show ladderGo 2 [(2, ⟨20, 1, 1, .Normal, 0⟩)] ({ srvStuck with pings := [] })
      [] [] tape = .error .loopStuck
    simp only [ladderGo]
    rw [if_neg (by decide)]
    rw [if_neg (by decide)]
    rw [if_pos (by decide)]
    rw [if_neg (by decide)]
    rw [if_neg (by decide)]
    have hmin : min ({ srvStuck with pings := ([] : List (Nat × PendingPing)) }
        : Server).pingreq_subgroup_sz ({ srvStuck with pings :=
          ([] : List (Nat × PendingPing)) } : Server).memberlist.length = 2 := by
      decide
    rw [hmin, hsel]
  rw [Server.tick]
  dsimp only
  rw [if_neg (by decide : ¬ (srvStuck.memberlist.length ≤ srvStuck.last_pinged))]
  rw [hlad]

/-! ## Amended-claim helper lemmas -/

@[simp] theorem ack_outbox (s : Server) (n r : Nat) :
    (s.ack n r).outbox = s.outbox ++
      [⟨r, s.id, s.addr, s.seq_no, .Ack n s.incarnation, (s.gossip).2⟩] := rfl

@[simp] theorem ackHandle_pings (s : Server) (pid inc a : Nat) (tape : List Nat) :
    (ackHandle s pid inc a tape).pings = s.pings := by
  rw [ackHandle]
  split
  · split <;> rfl
  · simp

theorem processGossip_suspect_self (s : Server) (tape : List Nat) (i : Nat) :
    processGossip s tape ⟨s.id, .Suspect, i⟩ =
      .ok ({ s with broadcasts :=
        s.broadcasts.push ⟨s.id, .Alive s.addr, s.incarnation⟩ }, tape) := by
  simp only [processGossip]
  rw [if_pos trivial]

/-- C1 amended: when B processes a Ping it emits an Ack carrying B's *own*
current seq_no (not the Ping's), addressed to the sender, with B's bumped
incarnation; and when A processes an Ack naming a peer with a pending ping,
that pending entry is removed unconditionally (the removal happens before the
seq_no comparison, so even a non-matching Ack cancels it). -/
theorem c1_direct_ack_behaviour :
    (∀ (s : Server) (now : Nat) (tape : List Nat) (msg : Message) (s' : Server),
      msg.kind = .Ping → s.process now tape msg = .ok s' →
      s'.outbox.map (fun m => (m.recipient, m.sender_id, m.sender, m.seq_no, m.kind)) =
        s.outbox.map (fun m => (m.recipient, m.sender_id, m.sender, m.seq_no, m.kind)) ++
        [(msg.sender_id, s.id, s.addr, s.seq_no, MsgKind.Ack s.id (s.incarnation + 1))])
    ∧ (∀ (s : Server) (now : Nat) (tape : List Nat) (msg : Message) (p inc : Nat)
        (pp : PendingPing) (s' : Server),
      msg.kind = .Ack p inc → alookup p s.pings = some pp →
      s.process now tape msg = .ok s' → alookup p s'.pings = none) := by
  constructor
  · intro s now tape msg s' hk hp
    rw [Server.process] at hp
    split at hp
    · cases hp
    · rw [hk] at hp
      dsimp only at hp
      obtain ⟨-, houtbox, -, -, -, -, -⟩ := processGossipList_frame _ _ _ _ hp
      simp [houtbox]
  · intro s now tape msg p inc pp s' hk hpp hp
    rw [Server.process] at hp
    split at hp
    · cases hp
    · rw [hk] at hp
      dsimp only at hp
      split at hp
      · rename_i hnone
        simp [hpp] at hnone
      · rename_i pp' hsome
        split at hp
        · cases hp
          exact alookup_aremove_self p _
        · obtain ⟨hpings, -, -, -, -, -, -⟩ := processGossipList_frame _ _ _ _ hp
          rw [hpings, ackHandle_pings]
          split
          · rw [ack_pings]
            exact alookup_aremove_self p _
          · exact alookup_aremove_self p _

/-- Witness for C1 amended, on the concrete exchange of `c1_counterexample`:
node 2's reply to node 1's Ping carries node 2's own seq_no 2, and node 1's
pending entry for node 2 is gone after it processes the (non-matching) Ack. -/
theorem c1_direct_ack_witness :
    srvB2.outbox.map (fun m => (m.recipient, m.sender_id, m.sender, m.seq_no, m.kind)) =
      srvB1.outbox.map (fun m => (m.recipient, m.sender_id, m.sender, m.seq_no, m.kind)) ++
      [(1, 2, 20, 2, MsgKind.Ack 2 3)] ∧
    alookup 2 srvA3.pings = none := by
  constructor
  · exact c1_direct_ack_behaviour.1 srvB1 0 [0] pingA srvB2 rfl (by decide)
  · exact c1_direct_ack_behaviour.2 srvA2 0 [0] ackB 2 3 ⟨20, 1, 1, .Normal, 0⟩ srvA3
      rfl (by decide) (by decide)

/-- C3 amended: processing a Suspect rumor about self enqueues an Alive rumor
about self carrying the node's *current* incarnation (no extra bump happens
in the refutation itself).  Within `process`, the preamble has already bumped
the incarnation, so the enqueued rumor's incarnation strictly exceeds the
incarnation the node had before the message — but not necessarily the
incarnation carried by the Suspect rumor. -/
theorem c3_suspect_self_refutation :
    (∀ (s : Server) (tape : List Nat) (i : Nat),
      processGossip s tape ⟨s.id, .Suspect, i⟩ =
        .ok ({ s with broadcasts :=
          s.broadcasts.push ⟨s.id, .Alive s.addr, s.incarnation⟩ }, tape))
    ∧ (∀ (s : Server) (now q a seqn : Nat) (tp : List Nat) (i : Nat) (s2 : Server),
      s.process now tp ⟨s.id, q, a, seqn, .Push [], [⟨s.id, .Suspect, i⟩]⟩ = .ok s2 →
      (∃ b ∈ s2.broadcasts.broadcasts,
        b.msg = ⟨s.id, .Alive s.addr, s.incarnation + 1⟩) ∧
      s.incarnation < s.incarnation + 1) := by
  constructor
  · exact processGossip_suspect_self
  · intro s now q a seqn tp i s2 hp
    rw [Server.process] at hp
    rw [if_neg (by simp)] at hp
    dsimp only at hp
    simp only [rememberPeers] at hp
    simp only [processGossipList] at hp
    generalize hgen : ({ s with incarnation := s.incarnation + 1 } :
      Server).remember q a 0 PeerState.Alive (draw tp).1 = s1 at hp
    have hid : s1.id = s.id := by rw [← hgen]; simp
    have haddr : s1.addr = s.addr := by rw [← hgen]; simp
    have hinc : s1.incarnation = s.incarnation + 1 := by rw [← hgen]; simp
    rw [show (⟨s.id, RumorKind.Suspect, i⟩ : Rumor) = ⟨s1.id, RumorKind.Suspect, i⟩
      from by rw [hid]] at hp
    rw [processGossip_suspect_self s1 _ i] at hp
    simp only [processGossipList] at hp
    cases hp
    refine ⟨⟨⟨⟨s1.id, .Alive s1.addr, s1.incarnation⟩, [],
      s1.broadcasts.next_broadcast, 0⟩, ?_, ?_⟩, by omega⟩
    · dsimp only
      simp [BroadcastStore.push]
    · dsimp only
      rw [hid, haddr, hinc]

/-- Witness for C3 amended: node 1 (incarnation 1) processing the concrete
Suspect-about-self message enqueues `Alive(1, addr 10)` at incarnation 2. -/
theorem c3_suspect_self_witness :
    (⟨1, RumorKind.Alive 10, 2⟩ : Rumor) ∈
      ((srvA.process 0 [0] suspectSelfMsg).toOption.getD srvA).broadcasts.broadcasts.map
        Broadcast.msg := by
  obtain ⟨⟨b, hb, hmsg⟩, -⟩ := c3_suspect_self_refutation.2 srvA 0 2 20 7 [0] 100
    ((srvA.process 0 [0] suspectSelfMsg).toOption.getD srvA) (by decide)
  refine List.mem_map.2 ⟨b, hb, ?_⟩
  rw [hmsg]
  decide

/-- C9 witness: on a node that knows peer 2 (incarnation 3), the Failed rumor
at incarnation 5 removes peer 2 from both structures and re-enqueues itself. -/
theorem c9_witness :
    (processGossip srvKnows2 [] ⟨2, .Failed, 5⟩).toOption.map
      (fun q => (alookup 2 q.1.membership, decide (2 ∈ q.1.memberlist),
        decide ((⟨2, RumorKind.Failed, 5⟩ : Rumor) ∈
          q.1.broadcasts.broadcasts.map Broadcast.msg)))
      = some (none, false, true) := by
  obtain ⟨s', heq, h1, h2, b, hb, hmsg⟩ :=
    (c9_failed_removal_and_rejoin srvKnows2 [] 2 5 ⟨2, 20, .Alive, 3⟩).1
      (by decide) (by decide) (by decide)
  rw [heq]
  simp only [Except.toOption, Option.map_some']
  rw [h1]
  rw [decide_eq_false h2]
  rw [decide_eq_true (List.mem_map.2 ⟨b, hb, hmsg⟩)]

/-- C7 amended: `process` removes a pending ping exactly when the message is
an Ack naming its target — regardless of whether the seq_no matches — and
adds one in the `PingReq` branch; in particular processing a `Failed` rumor
about a ping's target does *not* cancel the pending ping. -/
theorem c7_pending_ping_cancellation :
    ∀ (s : Server) (now : Nat) (tape : List Nat) (msg : Message) (s' : Server),
    s.process now tape msg = .ok s' →
    s'.pings = (match msg.kind with
      | .Ack p _ => if (alookup p s.pings).isSome then aremove p s.pings else s.pings
      | .PingReq t a => if t = s.id then s.pings
          else ainsert t ⟨a, s.seq_no, msg.sender_id,
            (if msg.sender_id ≠ s.id then .FromElsewhere else .Normal), now⟩ s.pings
      | _ => s.pings) := by
  intro s now tape msg s' hp
  rcases msg with ⟨rcpt, sid, saddr, seq, kind, gsp⟩
  rw [Server.process] at hp
  split at hp
  · cases hp
  · have hp1 : (({ s with incarnation := s.incarnation + 1 } :
        Server).remember sid saddr 0 PeerState.Alive (draw tape).1).pings
        = s.pings := by simp
    have hid1 : (({ s with incarnation := s.incarnation + 1 } :
        Server).remember sid saddr 0 PeerState.Alive (draw tape).1).id
        = s.id := by simp
    have hsq1 : (({ s with incarnation := s.incarnation + 1 } :
        Server).remember sid saddr 0 PeerState.Alive (draw tape).1).seq_no
        = s.seq_no := by simp
    cases kind with
    | Push peers =>
      dsimp only at hp ⊢
      obtain ⟨hpg, -, -, -, -, -, -⟩ := processGossipList_frame _ _ _ _ hp
      obtain ⟨-, -, -, -, hrp, -, -⟩ := rememberPeers_frame _ _ _
      rw [hpg, hrp, hp1]
    | Pull peers =>
      dsimp only at hp ⊢
      obtain ⟨hpg, -, -, -, -, -, -⟩ := processGossipList_frame _ _ _ _ hp
      obtain ⟨-, -, -, -, hrp, -, -⟩ := rememberPeers_frame _ _ _
      rw [hpg, hrp]
      simp [hp1]
    | Ping =>
      dsimp only at hp ⊢
      obtain ⟨hpg, -, -, -, -, -, -⟩ := processGossipList_frame _ _ _ _ hp
      rw [hpg, ack_pings, hp1]
    | PingReq target_id target =>
      dsimp only at hp ⊢
      split at hp
      · rename_i ht
        rw [if_pos (by rw [← hid1]; exact ht)]
        obtain ⟨hpg, -, -, -, -, -, -⟩ := processGossipList_frame _ _ _ _ hp
        rw [hpg, ack_pings, hp1]
      · rename_i ht
        rw [if_neg (by rw [← hid1]; exact ht)]
        obtain ⟨hpg, -, -, -, -, -, -⟩ := processGossipList_frame _ _ _ _ hp
        rw [hpg, ping_pings]
        rw [hp1, hsq1, hid1]
    | Ack p inc =>
      dsimp only at hp ⊢
      split at hp
      · rename_i hnone
        rw [hp1] at hnone
        cases hp
        rw [if_neg (by rw [hnone]; simp)]
        exact hp1
      · rename_i pp hsome
        rw [hp1] at hsome
        rw [if_pos (by rw [hsome]; simp)]
        split at hp
        · cases hp
          dsimp only
          rw [hp1]
        · obtain ⟨hpg, -, -, -, -, -, -⟩ := processGossipList_frame _ _ _ _ hp
          rw [hpg, ackHandle_pings]
          split
          · rw [ack_pings]
            dsimp only
            rw [hp1]
          · dsimp only
            rw [hp1]

/-- Witness for C7 amended: node 1's pending ping to node 2 is removed by the
Ack even though the Ack's seq_no (2) does not match the stored seq_no (1). -/
theorem c7_cancellation_witness :
    srvA3.pings = (if (alookup 2 srvA2.pings).isSome then aremove 2 srvA2.pings
      else srvA2.pings) := by
  have h := c7_pending_ping_cancellation srvA2 0 [0] ackB srvA3 (by decide)
  exact h
